import Mathlib

/-
Verification development for the query-expansion utilities of the
`eventsV2` Discover view (`src/sentry/static/sentry/app/views/eventsV2/utils.tsx`).

The TypeScript source is shallowly embedded: JavaScript objects become
ordered association lists with JS-object update semantics (an assignment to
an existing key updates it in place, a new key is appended; `delete` removes
the entry), JS strings become Lean `String`s manipulated through explicit
character-list primitives mirroring the JavaScript string methods used by
the source (`split`, `trim`, regular-expression character tests), and the
optional/variant values a data row may carry become an explicit `JVal` sum.

Helpers that the source imports from elsewhere in the repository
(`explodeFieldString`, `getAggregateAlias`, `tokenizeSearch`,
`stringifyQueryObject`, `EventView` cloning, the static schema tables) are
not part of this fragment; they are modelled from the specification and are
marked `Modelled from the spec:` in their doc comments.
-/

namespace Sentry

/-! ### JavaScript string primitives -/

/-- JavaScript `value.split(sep)` on a character separator, as a recursion on
the character list: `""` splits to `[""]`, separators at the ends produce
empty segments, exactly as in JavaScript. -/
def splitListOn (sep : Char) : List Char → List (List Char)
  | [] => [[]]
  | c :: rest =>
    let r := splitListOn sep rest
    if c = sep then [] :: r
    else
      match r with
      | h :: t => (c :: h) :: t
      | [] => [[c]]

/-- JavaScript `s.split(sep)` for a single-character separator. -/
def jsSplit (sep : Char) (s : String) : List String :=
  (splitListOn sep s.toList).map (fun l => String.mk l)

/-- JavaScript `s.trim()`: drop whitespace from both ends. -/
def jsTrim (s : String) : String :=
  String.mk (((s.toList.dropWhile Char.isWhitespace).reverse.dropWhile Char.isWhitespace).reverse)

/-- Join a list of strings with a separator, `parts.join(sep)` in JavaScript. -/
def joinWith (sep : String) : List String → String
  | [] => ""
  | h :: t => t.foldl (fun acc p => acc ++ sep ++ p) h

/-- The character class of the regular expression `/[\s\(\)\\"]/` used by the
condition generator: whitespace, parentheses, backslash, double quote. -/
def isQuotableChar (c : Char) : Bool :=
  c.isWhitespace || c = '(' || c = ')' || c = '\\' || c = '"'

/-- Test of the regular expression `/[\s\(\)\\"]/` against a string. -/
def hasQuotableChar (s : String) : Bool :=
  s.toList.any isQuotableChar

/-- Test of the regular expression `/^p\d+$/` (a percentile function name such
as `p50`). -/
def isPercentileName (s : String) : Bool :=
  match s.toList with
  | 'p' :: ds => !ds.isEmpty && ds.all Char.isDigit
  | _ => false

/-- JavaScript `parseInt(s, 10)`: skip leading whitespace, read an optional
sign and then the longest digit prefix; `none` models the `NaN` result when
no digit is found. -/
def parseIntBase10 (s : String) : Option Int :=
  let cs := s.toList.dropWhile Char.isWhitespace
  let digitsVal : List Char → Option Nat := fun l =>
    let ds := l.takeWhile Char.isDigit
    if ds.isEmpty then none
    else some (ds.foldl (fun a c => a * 10 + (c.toNat - 48)) 0)
  match cs with
  | '-' :: rest => (digitsVal rest).map (fun n => -(n : Int))
  | '+' :: rest => (digitsVal rest).map (fun n => (n : Int))
  | _ => (digitsVal cs).map (fun n => (n : Int))

/-! ### Columns and field strings -/

/-- Decoded form of a field string: either a bare attribute reference or an
aggregate-function application.  `arg` is the raw text between the
parentheses (the source only ever reads `function[0]` and `function[1]`). -/
inductive Column where
  | field (field : String)
  | function (name : String) (arg : String)
deriving DecidableEq, Repr

/-- Whether a decoded column is a bare field reference. -/
def Column.isField : Column → Bool
  | .field _ => true
  | .function _ _ => false

/-- Modelled from the spec: `explodeFieldString` (from
`app/utils/discover/fields`, outside this fragment) decodes a field string
into the `Column` tagged union.  A string of the shape `name(args)` — a
nonempty name with no parenthesis, then an opening parenthesis, then the
argument text, with a closing parenthesis as the final character — decodes
as a function application; every other string decodes as a bare field. -/
def explodeField (f : String) : Column :=
  match f.toList.takeWhile (fun c => c ≠ '('), f.toList.dropWhile (fun c => c ≠ '(') with
  | [], _ => Column.field f
  | _, [] => Column.field f
  | nm, _ :: mid =>
    match mid.getLast? with
    | some ')' => Column.function (String.mk nm) (String.mk mid.dropLast)
    | _ => Column.field f

/-- Modelled from the spec: `getAggregateAlias` (from
`app/utils/discover/fields`, outside this fragment) computes the
externally-visible key of a field.  Bare field strings are returned
unchanged; aggregate strings are flattened to an alias by joining the
function name and argument with an underscore and replacing every
non-alphanumeric character with an underscore, trailing underscores
stripped. -/
def getAggregateAlias (field : String) : String :=
  match explodeField field with
  | .field _ => field
  | .function name arg =>
    let raw := (name ++ "_" ++ arg).toList.map
      (fun c => if c.isAlphanum then c else '_')
    String.mk ((raw.reverse.dropWhile (fun c => c = '_')).reverse)

/-! ### Static schema tables -/

/-- Parameter kinds of an aggregate function: a column reference or a
literal value. -/
inductive ParamKind where
  | column
  | value
deriving DecidableEq, Repr

/-- A formal parameter of an aggregate function. -/
structure AggParameter where
  kind : ParamKind
deriving DecidableEq, Repr

/-- Static metadata of an aggregate function (only the parameter list is
consulted by this fragment). -/
structure Aggregation where
  parameters : List AggParameter
deriving DecidableEq, Repr

/-- Modelled from the spec: the static `AGGREGATIONS` schema table (from
`app/utils/discover/fields`, outside this fragment); representative entries,
treated as configuration data. -/
def AGGREGATIONS : List (String × Aggregation) :=
  [("count", ⟨[]⟩),
   ("count_unique", ⟨[⟨ParamKind.column⟩]⟩),
   ("min", ⟨[⟨ParamKind.column⟩]⟩),
   ("max", ⟨[⟨ParamKind.column⟩]⟩),
   ("avg", ⟨[⟨ParamKind.column⟩]⟩),
   ("sum", ⟨[⟨ParamKind.column⟩]⟩),
   ("last_seen", ⟨[]⟩),
   ("latest_event", ⟨[]⟩),
   ("apdex", ⟨[⟨ParamKind.value⟩]⟩),
   ("impact", ⟨[⟨ParamKind.value⟩]⟩),
   ("user_misery", ⟨[⟨ParamKind.value⟩]⟩),
   ("failure_rate", ⟨[]⟩),
   ("percentile", ⟨[⟨ParamKind.column⟩, ⟨ParamKind.value⟩]⟩),
   ("p50", ⟨[]⟩),
   ("p75", ⟨[]⟩),
   ("p95", ⟨[]⟩),
   ("p99", ⟨[]⟩),
   ("p100", ⟨[]⟩)]

/-- Modelled from the spec: the reserved scoping parameter names,
`Object.values(URL_PARAM)` from `app/constants/globalSelectionHeader`
(outside this fragment). -/
def specialKeys : List String :=
  ["project", "environment", "start", "end", "utc", "statsPeriod"]

/-- The `TRANSFORM_AGGREGATES` map between aggregate function names and
their un-aggregated form (source lines 175–182). -/
def TRANSFORM_AGGREGATES : List (String × String) :=
  [("last_seen", "timestamp"),
   ("latest_event", ""),
   ("apdex", ""),
   ("impact", ""),
   ("user_misery", ""),
   ("failure_rate", "")]

/-- `transformAggregate` (source lines 184–191): percentile names map to
`transaction.duration`; otherwise the `TRANSFORM_AGGREGATES` entry, or the
empty string when absent (`TRANSFORM_AGGREGATES[fieldName] || ''`). -/
def transformAggregate (fieldName : String) : String :=
  if isPercentileName fieldName then "transaction.duration"
  else (TRANSFORM_AGGREGATES.lookup fieldName).getD ""

/-- `isTransformAggregate` (source lines 193–195). -/
def isTransformAggregate (fieldName : String) : Bool :=
  transformAggregate fieldName ≠ ""

/-- `normalizeUserTag` (source lines 47–54).  JavaScript
`value.split(':', 2)` truncates the full split to its first two segments. -/
def normalizeUserTag (key value : String) : String × String :=
  let parts := (jsSplit ':' value).take 2
  match parts with
  | [a, b] => (key ++ "." ++ a, b)
  | [a] => (key, a)
  | _ => (key, "")

/-! ### Data rows and condition maps -/

/-- A JavaScript scalar value as found in a data row: a string, an integer
number, `null`, or `undefined`. -/
inductive JVal where
  | str (s : String)
  | num (n : Int)
  | null
  | undef
deriving DecidableEq, Repr

/-- JavaScript truthiness of a `JVal`. -/
def JVal.truthy : JVal → Bool
  | .str s => s ≠ ""
  | .num n => n ≠ 0
  | .null => false
  | .undef => false

/-- JavaScript `String(value)` on a `JVal`. -/
def JVal.toStr : JVal → String
  | .str s => s
  | .num n => toString n
  | .null => "null"
  | .undef => "undefined"

/-- A `{key, value}` tag pair carried by a data row. -/
structure Tag where
  key : String
  value : String
deriving DecidableEq, Repr

/-- A data row: attribute name to scalar value, plus an optional tag list
(`none` models an absent or non-array `tags` property). -/
structure DataRow where
  attrs : List (String × JVal)
  tags : Option (List Tag)
deriving DecidableEq, Repr

/-- `row.hasOwnProperty(k) ? row[k] : none` — first matching attribute. -/
def DataRow.get (r : DataRow) (k : String) : Option JVal :=
  (r.attrs.find? (fun p => p.1 = k)).map (fun p => p.2)

/-- An ordered string-to-string mapping with JavaScript-object semantics.
JavaScript objects have no duplicate keys; maps built by this development
are constructed through `setKey`/`delKey` starting from `[]` and stay
duplicate-free. -/
abbrev CondMap := List (String × String)

/-- JavaScript `m[k] = v`: update the entry in place if the key exists,
append it otherwise. -/
def setKey (m : CondMap) (k v : String) : CondMap :=
  if m.any (fun p => p.1 = k) then
    m.map (fun p => if p.1 = k then (k, v) else p)
  else m ++ [(k, v)]

/-- JavaScript `delete m[k]`. -/
def delKey (m : CondMap) (k : String) : CondMap :=
  m.filter (fun p => p.1 ≠ k)

/-- Read a key from a condition map. -/
def lookupKey (m : CondMap) (k : String) : Option String :=
  (m.find? (fun p => p.1 = k)).map (fun p => p.2)

/-- JavaScript `Object.assign({}, a, b)`: insert the entries of `a` and then
of `b`, in order, into a fresh object. -/
def objAssign (a b : CondMap) : CondMap :=
  (a ++ b).foldl (fun m kv => setKey m kv.1 kv.2) []

/-- Modelled from the spec: `getUtcDateString` (from `app/utils/dates`,
outside this fragment) normalizes a timestamp to a canonical UTC date-time
string; its exact formatting is external to this fragment and no claim
depends on it, so it is modelled as an unspecified total string function. -/
def getUtcDateString (value : String) : String :=
  value

/-! ### Condition generator (source lines 308–383) -/

/-- The value normalization of `generateAdditionalConditions` (source lines
333–345): `null`/`undefined` become the empty string; other values are
stringified and trimmed, unless the trimmed string contains a character
matched by `/[\s\(\)\\"]/`, in which case the string is passed through
untrimmed. -/
def normalizeConditionValue (v : JVal) : String :=
  match v with
  | .null => ""
  | .undef => ""
  | _ =>
    let s := v.toStr
    if hasQuotableChar (jsTrim s) then s else jsTrim s

/-- The attribute block of the `eventView.fields.forEach` loop of
`generateAdditionalConditions` (source lines 328–359): append the current
field as a condition if its key exists in the data row, special-casing the
`timestamp` and `user` attributes. -/
def conditionStepAttr (row : DataRow) (conditions : CondMap) (dataKey columnField : String) :
    CondMap :=
  match row.get dataKey with
  | none => conditions
  | some value =>
    let nextValue := normalizeConditionValue value
    if columnField = "timestamp" then
      setKey conditions columnField (getUtcDateString nextValue)
    else if columnField = "user" then
      let normalized := normalizeUserTag dataKey nextValue
      setKey conditions normalized.1 normalized.2
    else
      setKey conditions columnField nextValue

/-- The tag block of the same loop (source lines 361–380): a tag whose key
equals the field's key overwrites the condition, wrapping the key in
`tags[...]` when it collides with a reserved scoping parameter, and
re-splitting `user` tags after deleting any attribute-derived `user`
condition. -/
def conditionStepTag (row : DataRow) (conditions : CondMap) (dataKey columnField : String) :
    CondMap :=
  match row.tags with
  | none => conditions
  | some tags =>
    match tags.find? (fun item => item.key = dataKey) with
    | none => conditions
    | some tag =>
      let key :=
        if specialKeys.contains columnField then "tags[" ++ columnField ++ "]"
        else columnField
      if key = "user" then
        let conditions := delKey conditions key
        let normalized := normalizeUserTag key tag.value
        setKey conditions normalized.1 normalized.2
      else
        setKey conditions key tag.value

/-- The whole body of the `eventView.fields.forEach` loop of
`generateAdditionalConditions` (source lines 319–381): aggregate fields are
skipped, bare fields run the attribute block and then the tag block. -/
def conditionStep (row : DataRow) (conditions : CondMap) (field : String) : CondMap :=
  match explodeField field with
  | .function _ _ => conditions
  | .field columnField =>
    let dataKey := getAggregateAlias field
    conditionStepTag row (conditionStepAttr row conditions dataKey columnField) dataKey columnField

/-! ### Event views and the filter-string tokenizer -/

/-- A field of an event view.  The source's `Field` also carries an optional
display width, which no transformation in this fragment reads and which is
dropped from the model. -/
structure Field where
  field : String
deriving DecidableEq, Repr

/-- The query state of the Discover view: ordered field list, filter string,
and the project/environment scope lists.  A project entry is `Option Int`,
`none` modelling the JavaScript `NaN` produced by a failed `parseInt`. -/
structure EventView where
  fields : List Field
  query : String
  project : List (Option Int)
  environment : List String
deriving DecidableEq, Repr

/-- Modelled from the spec: `EventView.clone` (from
`app/utils/discover/eventView`, outside this fragment) produces a copy of
the view; in this value-based embedding a copy is the value itself. -/
def EventView.clone (ev : EventView) : EventView := ev

/-- The parsed form of a filter string: free-text tokens plus an ordered
mapping from keys to lists of values. -/
structure QueryResults where
  freeText : List String
  tags : List (String × List String)
deriving DecidableEq, Repr

/-- JavaScript-object assignment `parsed[k] = vs` on the tag mapping. -/
def setTagList (tags : List (String × List String)) (k : String)
    (vs : List String) : List (String × List String) :=
  if tags.any (fun p => p.1 = k) then
    tags.map (fun p => if p.1 = k then (k, vs) else p)
  else tags ++ [(k, vs)]

/-- Split a token at its first colon into a key/value pair; a token with no
colon is free text. -/
def splitToken (t : String) : Option (String × String) :=
  match jsSplit ':' t with
  | [] => none
  | [_] => none
  | k :: rest => some (k, joinWith ":" rest)

/-- Modelled from the spec: `tokenizeSearch` (from
`app/utils/tokenizeSearch`, outside this fragment).  The filter string is a
whitespace-tokenized sequence of `key:value` pairs; repeated keys become
multi-valued lists and tokens without a colon are kept as free text. -/
def tokenizeSearch (query : String) : QueryResults :=
  let tokens := (jsSplit ' ' query).filter (fun t => t ≠ "")
  tokens.foldl
    (fun acc t =>
      match splitToken t with
      | none => { acc with freeText := acc.freeText ++ [t] }
      | some (k, v) =>
        match acc.tags.find? (fun p => p.1 = k) with
        | some p => { acc with tags := setTagList acc.tags k (p.2 ++ [v]) }
        | none => { acc with tags := acc.tags ++ [(k, [v])] })
    ⟨[], []⟩

/-- Modelled from the spec: `stringifyQueryObject` (from
`app/utils/tokenizeSearch`, outside this fragment).  Free text first, then
each key/value pair as `key:value`, values quoted to preserve embedded
whitespace or parentheses, all joined with single spaces. -/
def stringifyQueryObject (qr : QueryResults) : String :=
  let tagTokens := (qr.tags.map
    (fun kv => kv.2.map
      (fun v =>
        if hasQuotableChar v then kv.1 ++ ":\"" ++ v ++ "\""
        else kv.1 ++ ":" ++ v))).flatten
  joinWith " " (qr.freeText ++ tagTokens)

/-! ### Field transformer (source lines 208–297)

The source first collects the indices of the function-kind fields of the
original view (lines 209–215), then rewrites each collected index of the
clone in ascending order — each rewrite touches only its own index, so at
the moment index `i` is processed the field read there is still the
original one — and finally deletes the marked indices in descending order
(lines 294–297), which removes exactly the marked positions.  The fold
below is that computation expressed positionally: bare fields pass through
untouched, each function field is mapped to `some` replacement or to `none`
(marked deleted), and the trailing `filterMap` applies the deletions. -/

/-- State of the field-transformer pass: the `transformedFields` set (an
insertion-ordered list) and the positional output. -/
structure TransformState where
  transformed : List String
  out : List (Option Field)
deriving DecidableEq, Repr

/-- Processing of one field of the update loop of `getExpandedResults`
(source lines 222–292). -/
def transformFieldStep (st : TransformState) (currentField : Field) : TransformState :=
  match explodeField currentField.field with
  | .field _ =>
    -- not a function field: not collected into `fieldsToUpdate`, unchanged
    { st with out := st.out ++ [some currentField] }
  | .function name arg =>
    -- lines 226–232: the alias is the function name when it is a transform
    -- aggregate; the `exploded.kind === 'field'` arm is unreachable here
    -- because only function-kind fields are collected.
    let fieldNameAlias := if isTransformAggregate name then name else ""
    if isTransformAggregate fieldNameAlias then
      -- lines 234–251
      let nextFieldName := transformAggregate fieldNameAlias
      if nextFieldName = "" || st.transformed.contains nextFieldName then
        { st with out := st.out ++ [none] }
      else
        { transformed := st.transformed ++ [nextFieldName],
          out := st.out ++ [some ⟨nextFieldName⟩] }
    else if st.transformed.contains arg then
      -- lines 253–260 (the field-kind disjunct is unreachable here)
      { st with out := st.out ++ [none] }
    else if name = "count" || arg = "id" then
      -- lines 265–269
      { st with out := st.out ++ [none] }
    else
      -- lines 271–291
      let parameters := ((AGGREGATIONS.lookup name).map Aggregation.parameters).getD []
      if arg = "" || (parameters ≠ [] && parameters.all (fun p => p.kind ≠ ParamKind.column)) then
        { st with out := st.out ++ [none] }
      else
        { transformed := st.transformed ++ [arg],
          out := st.out ++ [some ⟨arg⟩] }

/-- The whole field-transformer pass over a field list. -/
def transformFields (fields : List Field) : List Field :=
  ((fields.foldl transformFieldStep ⟨[], []⟩).out).filterMap id

/-! ### Condition generation and query assembly (source lines 304–434) -/

/-- `generateAdditionalConditions` (source lines 308–383). -/
def generateAdditionalConditions (eventView : EventView) (dataRow : Option DataRow) :
    CondMap :=
  match dataRow with
  | none => []
  | some row => eventView.fields.foldl (fun c f => conditionStep row c f.field) []

/-- One iteration of the `for (const key in conditions)` loop of
`generateExpandedConditions` (source lines 408–431), threading the view
(whose scope lists the source mutates) and the parsed filter. -/
def expandedConditionStep (st : EventView × QueryResults) (kv : String × String) :
    EventView × QueryResults :=
  let eventView := st.1
  let parsedQuery := st.2
  let key := kv.1
  let value := kv.2
  if key = "project.id" then
    ({ eventView with project := eventView.project ++ [parseIntBase10 value] }, parsedQuery)
  else if key = "environment" then
    (if eventView.environment.contains value then eventView
     else { eventView with environment := eventView.environment ++ [value] },
     parsedQuery)
  else if key = "user" then
    -- the `typeof value === 'string'` guard always holds: condition values
    -- are strings in this embedding
    let normalized := normalizeUserTag key value
    (eventView, { parsedQuery with tags := setTagList parsedQuery.tags normalized.1 [normalized.2] })
  else
    match explodeField key with
    | .function _ _ => (eventView, parsedQuery)
    | .field _ =>
      (eventView, { parsedQuery with tags := setTagList parsedQuery.tags key [value] })

/-- `generateExpandedConditions` (source lines 385–434).  The source mutates
`eventView.project` and `eventView.environment` of its argument and returns
the new filter string; the embedding returns the updated view together with
that string. -/
def generateExpandedConditions (eventView : EventView) (additionalConditions : CondMap)
    (dataRow : Option DataRow) : EventView × String :=
  let parsedQuery := tokenizeSearch eventView.query
  -- lines 393–399: remove aggregate keys from the parsed filter
  let parsedQuery :=
    { parsedQuery with
      tags := parsedQuery.tags.filter (fun kv => (explodeField kv.1).isField) }
  let conditions := objAssign additionalConditions (generateAdditionalConditions eventView dataRow)
  let final := conditions.foldl expandedConditionStep (eventView, parsedQuery)
  (final.1, stringifyQueryObject final.2)

/-- `getExpandedResults` (source lines 203–302), with the untouched input
view returned alongside the result.  Every mutation the source performs —
the field rewrites and deletions, the scope-list updates inside
`generateExpandedConditions`, and the final `nextView.query` assignment —
targets `nextView`, the clone created on line 217; the first component
records the state of the input object after the call. -/
def getExpandedResultsTracked (eventView : EventView) (additionalConditions : CondMap)
    (dataRow : Option DataRow) : EventView × EventView :=
  let nextView := eventView.clone
  let nextView := { nextView with fields := transformFields nextView.fields }
  let assembled := generateExpandedConditions nextView additionalConditions dataRow
  (eventView, { assembled.1 with query := assembled.2 })

/-- `getExpandedResults` (source lines 203–302): the returned drill-down
view. -/
def getExpandedResults (eventView : EventView) (additionalConditions : CondMap)
    (dataRow : Option DataRow) : EventView :=
  (getExpandedResultsTracked eventView additionalConditions dataRow).2

/-! ### CSV export (source lines 135–157) -/

/-- Modelled from the spec: `disableMacros` (from
`app/views/discover/result/utils`, outside this fragment) neutralizes
spreadsheet-executable-formula content: a string value starting with `=`,
`+`, `-` or `@` is prefixed with a single quote. -/
def disableMacros (value : JVal) : JVal :=
  match value with
  | .str s =>
    match s.toList with
    | c :: _ => if c = '=' || c = '+' || c = '-' || c = '@' then .str ("'" ++ s) else value
    | [] => value
  | _ => value

/-- JavaScript `a || b`: `a` when truthy, `b` otherwise. -/
def jsOr (a b : JVal) : JVal :=
  if a.truthy then a else b

/-- One cell of the CSV data matrix built by `downloadAsCsv` (source lines
141–156): the column heading is resolved through `getAggregateAlias`, the
`user` column falls back through the user sub-attributes, and every value
passes through `disableMacros`. -/
def csvCell (row : DataRow) (colName : String) : JVal :=
  let col := getAggregateAlias colName
  let rowVal : String → JVal := fun k => (row.get k).getD JVal.undef
  if col = "user" then
    disableMacros
      (jsOr (rowVal "user")
        (jsOr (rowVal "user.name")
          (jsOr (rowVal "user.email")
            (jsOr (rowVal "user.username") (rowVal "user.ip")))))
  else disableMacros (rowVal col)

/-- The CSV data matrix of `downloadAsCsv` (source lines 139–157): one list
of cells per data row, one cell per column heading. -/
def downloadAsCsvData (headings : List String) (data : List DataRow) : List (List JVal) :=
  data.map (fun row => headings.map (fun col => csvCell row col))

/-- A field string is well formed when, if it decodes as a function
application, its argument text decodes as a bare field (it contains no
nested parenthesized application). -/
def wellFormedField (f : Field) : Bool :=
  match explodeField f.field with
  | .field _ => true
  | .function _ arg => (explodeField arg).isField

/-- Modelled from the claim: the first truthy value among the `user`,
`user.name`, `user.email` and `user.username` attributes of a row, in that
order, with the `user.ip` attribute as final fallback. -/
def firstTruthyUserValue (row : DataRow) : JVal :=
  match (["user", "user.name", "user.email", "user.username"].map
      (fun k => (row.get k).getD JVal.undef)).find? JVal.truthy with
  | some v => v
  | none => (row.get "user.ip").getD JVal.undef

/-! ### Lemmas about the JavaScript-object operations -/

theorem find?_update_self (m : CondMap) (k v : String) :
    (m.map (fun p => if p.1 = k then (k, v) else p)).find? (fun p => p.1 = k) =
      (m.find? (fun p => p.1 = k)).map (fun _ => (k, v)) := by
  induction m with
  | nil => rfl
  | cons p rest ih =>
    by_cases hp : p.1 = k
    · simp [List.find?_cons, hp]
    · simp [List.find?_cons, hp, ih]

theorem find?_update_ne (m : CondMap) (k v k' : String) (h : k' ≠ k) :
    (m.map (fun p => if p.1 = k then (k, v) else p)).find? (fun p => p.1 = k') =
      m.find? (fun p => p.1 = k') := by
  induction m with
  | nil => rfl
  | cons p rest ih =>
    by_cases hp : p.1 = k
    · have h1 : ¬ (k = k') := fun hh => h hh.symm
      have h2 : ¬ (p.1 = k') := fun hh => h (hp ▸ hh).symm
      simp [List.find?_cons, hp, h1, h2, ih]
    · simp [List.find?_cons, hp, ih]

theorem lookupKey_setKey_self (m : CondMap) (k v : String) :
    lookupKey (setKey m k v) k = some v := by
  unfold setKey lookupKey
  by_cases hany : m.any (fun p => p.1 = k)
  · rw [if_pos hany, find?_update_self]
    rcases List.any_eq_true.mp hany with ⟨x, hx, hpx⟩
    have : (m.find? (fun p => p.1 = k)).isSome := by
      rw [List.find?_isSome]
      exact ⟨x, hx, hpx⟩
    rcases Option.isSome_iff_exists.mp this with ⟨y, hy⟩
    simp [hy]
  · rw [if_neg hany]
    have hnone : m.find? (fun p => p.1 = k) = none := by
      rw [List.find?_eq_none]
      intro x hx hpx
      exact hany (List.any_eq_true.mpr ⟨x, hx, hpx⟩)
    simp [List.find?_append, hnone, List.find?_cons]

theorem lookupKey_setKey_ne (m : CondMap) (k v k' : String) (h : k' ≠ k) :
    lookupKey (setKey m k v) k' = lookupKey m k' := by
  unfold setKey lookupKey
  by_cases hany : m.any (fun p => p.1 = k)
  · rw [if_pos hany, find?_update_ne m k v k' h]
  · rw [if_neg hany]
    have hlast : List.find? (fun p => decide (p.1 = k')) [(k, v)] = none := by
      simp [List.find?_cons, Ne.symm h]
    rw [List.find?_append, hlast]
    cases m.find? (fun p => p.1 = k') <;> simp

theorem lookupKey_delKey_self (m : CondMap) (k : String) :
    lookupKey (delKey m k) k = none := by
  unfold delKey lookupKey
  have : (m.filter (fun p => p.1 ≠ k)).find? (fun p => p.1 = k) = none := by
    rw [List.find?_eq_none]
    intro x hx
    have := List.of_mem_filter hx
    simpa using this
  simp [this]

theorem lookupKey_delKey_ne (m : CondMap) (k k' : String) (h : k' ≠ k) :
    lookupKey (delKey m k) k' = lookupKey m k' := by
  unfold delKey lookupKey
  induction m with
  | nil => rfl
  | cons p rest ih =>
    by_cases hp : p.1 = k
    · have h2 : ¬ (p.1 = k') := fun hh => h (hp ▸ hh).symm
      rw [List.filter_cons_of_neg (by simp [hp]), List.find?_cons_of_neg _ (by simp [h2])]
      exact ih
    · by_cases hp' : p.1 = k'
      · rw [List.filter_cons_of_pos (by simp [hp]), List.find?_cons_of_pos _ (by simp [hp']),
          List.find?_cons_of_pos _ (by simp [hp'])]
      · rw [List.filter_cons_of_pos (by simp [hp]), List.find?_cons_of_neg _ (by simp [hp']),
          List.find?_cons_of_neg _ (by simp [hp'])]
        exact ih

theorem expandedConditionStep_fields (st : EventView × QueryResults) (kv : String × String) :
    ((expandedConditionStep st kv).1).fields = st.1.fields := by
  unfold expandedConditionStep
  by_cases h1 : kv.1 = "project.id"
  · simp [h1]
  · by_cases h2 : kv.1 = "environment"
    · simp [h1, h2]
      split <;> rfl
    · by_cases h3 : kv.1 = "user"
      · simp [h1, h2, h3]
      · simp [h1, h2, h3]
        cases explodeField kv.1 <;> rfl

theorem expandedConditionStep_project (st : EventView × QueryResults) (kv : String × String) :
    ((expandedConditionStep st kv).1).project =
      st.1.project ++ (if kv.1 = "project.id" then [parseIntBase10 kv.2] else []) := by
  unfold expandedConditionStep
  by_cases h1 : kv.1 = "project.id"
  · simp [h1]
  · by_cases h2 : kv.1 = "environment"
    · simp [h1, h2]
      split <;> rfl
    · by_cases h3 : kv.1 = "user"
      · simp [h1, h2, h3]
      · simp [h1, h2, h3]
        cases explodeField kv.1 <;> rfl

theorem foldl_expandedConditionStep_fields (conds : CondMap) :
    ∀ st : EventView × QueryResults,
      ((conds.foldl expandedConditionStep st).1).fields = st.1.fields := by
  induction conds with
  | nil => intro st; rfl
  | cons kv rest ih =>
    intro st
    rw [List.foldl_cons, ih (expandedConditionStep st kv)]
    exact expandedConditionStep_fields st kv

theorem foldl_expandedConditionStep_project (conds : CondMap) :
    ∀ st : EventView × QueryResults,
      ((conds.foldl expandedConditionStep st).1).project =
        st.1.project ++
          (conds.filter (fun kv => kv.1 = "project.id")).map (fun kv => parseIntBase10 kv.2) := by
  induction conds with
  | nil => intro st; simp
  | cons kv rest ih =>
    intro st
    rw [List.foldl_cons, ih (expandedConditionStep st kv), expandedConditionStep_project]
    by_cases h : kv.1 = "project.id"
    · simp [List.filter_cons, h]
    · simp [List.filter_cons, h]

theorem nodupKeys_setKey (m : CondMap) (k v : String)
    (h : (m.map Prod.fst).Nodup) : ((setKey m k v).map Prod.fst).Nodup := by
  unfold setKey
  by_cases hany : m.any (fun p => p.1 = k)
  · rw [if_pos hany]
    have hkeys : ((m.map (fun p => if p.1 = k then (k, v) else p)).map Prod.fst) =
        m.map Prod.fst := by
      rw [List.map_map]
      apply List.map_congr_left
      intro p _
      by_cases hp : p.1 = k <;> simp [hp]
    rw [hkeys]; exact h
  · rw [if_neg hany, List.map_append]
    rw [List.nodup_append]
    refine ⟨h, by simp, ?_⟩
    intro x hx hy
    simp at hy
    rcases List.mem_map.mp hx with ⟨p, hp, hfst⟩
    exact hany (List.any_eq_true.mpr ⟨p, hp, by simp [hfst, hy]⟩)

theorem nodupKeys_objAssign (a b : CondMap) : ((objAssign a b).map Prod.fst).Nodup := by
  unfold objAssign
  have aux : ∀ (l : CondMap) (m : CondMap), (m.map Prod.fst).Nodup →
      ((l.foldl (fun m kv => setKey m kv.1 kv.2) m).map Prod.fst).Nodup := by
    intro l
    induction l with
    | nil => intro m hm; exact hm
    | cons kv rest ih =>
      intro m hm
      exact ih (setKey m kv.1 kv.2) (nodupKeys_setKey m kv.1 kv.2 hm)
  exact aux (a ++ b) [] (by simp)

theorem filter_eq_single_of_lookupKey (m : CondMap) (k v : String)
    (hnd : (m.map Prod.fst).Nodup) (h : lookupKey m k = some v) :
    m.filter (fun kv => kv.1 = k) = [(k, v)] := by
  induction m with
  | nil => simp [lookupKey] at h
  | cons p rest ih =>
    have hnd' : p.1 ∉ rest.map Prod.fst ∧ (rest.map Prod.fst).Nodup := by
      rw [List.map_cons, List.nodup_cons] at hnd
      exact hnd
    by_cases hp : p.1 = k
    · have hval : p.2 = v := by
        unfold lookupKey at h
        rw [List.find?_cons_of_pos _ (by simp [hp])] at h
        simpa using h
      have hpkv : p = (k, v) := by
        cases p
        simp at hp hval
        simp [hp, hval]
      have hrest : rest.filter (fun kv => kv.1 = k) = [] := by
        rw [List.filter_eq_nil_iff]
        intro q hq
        simp only [decide_eq_true_eq]
        intro hqk
        exact hnd'.1 (hp ▸ hqk ▸ List.mem_map_of_mem Prod.fst hq)
      rw [List.filter_cons_of_pos (by simp [hp]), hrest, hpkv]
    · unfold lookupKey at h
      rw [List.find?_cons_of_neg _ (by simp [hp])] at h
      rw [List.filter_cons_of_neg (by simp [hp])]
      exact ih hnd'.2 h

/-! ### Claim C4 — splitting of "user" values -/

/-- C4 counterexample: for the bare `user` field with data-row value
`"id:12:34"`, the generated condition is `user.id -> "12"`, not the claimed
`user.id -> "12:34"`: `value.split(':', 2)` truncates to the first two
segments, it does not keep the remainder after the first colon. -/
theorem user_split_remainder_cex :
    lookupKey
        (generateAdditionalConditions ⟨[⟨"user"⟩], "", [], []⟩
          (some ⟨[("user", JVal.str "id:12:34")], none⟩)) "user.id" ≠
      some "12:34" ∧
    lookupKey
        (generateAdditionalConditions ⟨[⟨"user"⟩], "", [], []⟩
          (some ⟨[("user", JVal.str "id:12:34")], none⟩)) "user.id" =
      some "12" := by
  constructor
  · decide
  · decide

/-- C4 (amended): `normalizeUserTag` splits the value on `:` and keeps only
the first two segments (JavaScript `split(':', 2)`): when the value contains
a colon the pair is `(key ++ "." ++ first segment, second segment)` — the
text after a second colon is dropped — and when the value contains no colon
the pair is `(key, value)`. -/
theorem normalizeUserTag_split_spec :
    (∀ key value a b rest, jsSplit ':' value = a :: b :: rest →
        normalizeUserTag key value = (key ++ "." ++ a, b)) ∧
      (∀ key value a, jsSplit ':' value = [a] →
        normalizeUserTag key value = (key, a)) := by
  constructor
  · intro key value a b rest h
    unfold normalizeUserTag
    rw [h]
    simp [List.take]
  · intro key value a h
    unfold normalizeUserTag
    rw [h]
    simp [List.take]

/-- C4 witness: the amended statement evaluated on `"id:12:34"` (two colons)
and on `"someone"` (no colon). -/
theorem normalizeUserTag_split_spec_witness :
    normalizeUserTag "user" "id:12:34" = ("user.id", "12") ∧
      normalizeUserTag "user" "someone" = ("user", "someone") :=
  ⟨normalizeUserTag_split_spec.1 "user" "id:12:34" "id" "12" ["34"] (by decide),
   normalizeUserTag_split_spec.2 "user" "someone" "someone" (by decide)⟩

/-! ### Claim C9 — the input view is never mutated -/

/-- C9: `getExpandedResults` leaves the input `EventView` unchanged — its
field list, filter string, project list and environment list after the call
are those it was called with.  Every mutation the source performs (field
rewrites and deletions, the scope-list updates of
`generateExpandedConditions`, the final `query` assignment) targets
`nextView`, the clone; the tracked embedding returns the input object's
state after the call as its first component. -/
theorem getExpandedResults_input_untouched (eventView : EventView)
    (additionalConditions : CondMap) (dataRow : Option DataRow) :
    ((getExpandedResultsTracked eventView additionalConditions dataRow).1).fields =
        eventView.fields ∧
      ((getExpandedResultsTracked eventView additionalConditions dataRow).1).query =
        eventView.query ∧
      ((getExpandedResultsTracked eventView additionalConditions dataRow).1).project =
        eventView.project ∧
      ((getExpandedResultsTracked eventView additionalConditions dataRow).1).environment =
        eventView.environment :=
  ⟨rfl, rfl, rfl, rfl⟩

/-! ### Claim C10 — CSV "user" column resolution -/

theorem jsOr_chain_eq_find (v1 v2 v3 v4 v5 : JVal) :
    jsOr v1 (jsOr v2 (jsOr v3 (jsOr v4 v5))) =
      match [v1, v2, v3, v4].find? JVal.truthy with
      | some v => v
      | none => v5 := by
  by_cases h1 : v1.truthy
  · simp [jsOr, h1, List.find?_cons]
  · by_cases h2 : v2.truthy
    · simp [jsOr, h1, h2, List.find?_cons]
    · by_cases h3 : v3.truthy
      · simp [jsOr, h1, h2, h3, List.find?_cons]
      · by_cases h4 : v4.truthy
        · simp [jsOr, h1, h2, h3, h4, List.find?_cons]
        · simp [jsOr, h1, h2, h3, h4, List.find?_cons]

theorem csvCell_user_eq (row : DataRow) :
    csvCell row "user" =
      disableMacros
        (jsOr ((row.get "user").getD JVal.undef)
          (jsOr ((row.get "user.name").getD JVal.undef)
            (jsOr ((row.get "user.email").getD JVal.undef)
              (jsOr ((row.get "user.username").getD JVal.undef)
                ((row.get "user.ip").getD JVal.undef))))) := by
  have halias : getAggregateAlias "user" = "user" := by decide
  simp [csvCell, halias]

/-- C10: in CSV export the `user` column resolves to the first truthy value
among the row's `user`, `user.name`, `user.email`, `user.username` and
`user.ip` attributes, in that order; in particular a present but
empty-string `user` value is not truthy and falls through to the next
sub-attribute. -/
theorem csv_user_first_truthy :
    (∀ row : DataRow, csvCell row "user" = disableMacros (firstTruthyUserValue row)) ∧
      (∀ row : DataRow, row.get "user" = some (JVal.str "") →
        csvCell row "user" =
          disableMacros
            (jsOr ((row.get "user.name").getD JVal.undef)
              (jsOr ((row.get "user.email").getD JVal.undef)
                (jsOr ((row.get "user.username").getD JVal.undef)
                  ((row.get "user.ip").getD JVal.undef))))) := by
  constructor
  · intro row
    rw [csvCell_user_eq, firstTruthyUserValue, jsOr_chain_eq_find]
    simp
  · intro row h
    rw [csvCell_user_eq, h]
    simp [jsOr, JVal.truthy]

/-- C10 witness: a row whose `user` attribute is present but empty and whose
only other user sub-attribute is `user.ip` resolves to the ip value. -/
theorem csv_user_first_truthy_witness :
    DataRow.get ⟨[("user", JVal.str ""), ("user.ip", JVal.str "8.8.8.8")], none⟩ "user" =
        some (JVal.str "") ∧
      csvCell ⟨[("user", JVal.str ""), ("user.ip", JVal.str "8.8.8.8")], none⟩ "user" =
        JVal.str "8.8.8.8" := by
  refine ⟨by decide, ?_⟩
  rw [csv_user_first_truthy.2 ⟨[("user", JVal.str ""), ("user.ip", JVal.str "8.8.8.8")], none⟩
    (by decide)]
  decide

/-! ### Claim C3 — percentile aggregates -/

/-- C3 counterexample: with field list `[transaction.duration, p50()]` the
claim predicts that `p50()` is deleted (the duration attribute already
appears in the field list), but the pass dedupes only against fields it
produced itself, so the result carries `transaction.duration` twice. -/
theorem transform_percentile_cex :
    (getExpandedResults ⟨[⟨"transaction.duration"⟩, ⟨"p50()"⟩], "", [], []⟩ [] none).fields ≠
        [⟨"transaction.duration"⟩] ∧
      (getExpandedResults ⟨[⟨"transaction.duration"⟩, ⟨"p50()"⟩], "", [], []⟩ [] none).fields =
        [⟨"transaction.duration"⟩, ⟨"transaction.duration"⟩] := by
  constructor
  · decide
  · decide

/-- C3 (amended): a field whose function name matches `p<digits>` is
replaced by a bare reference to `transaction.duration`, and is deleted
instead exactly when `transaction.duration` was already produced by an
earlier transformed aggregate of the same pass (recorded in the
`transformedFields` set); a pre-existing bare `transaction.duration` field
does not trigger the dedupe. -/
theorem transform_percentile (st : TransformState) (f : Field) (name arg : String)
    (hf : explodeField f.field = Column.function name arg)
    (hp : isPercentileName name = true) :
    transformFieldStep st f =
      if st.transformed.contains "transaction.duration" then
        { st with out := st.out ++ [none] }
      else
        { transformed := st.transformed ++ ["transaction.duration"],
          out := st.out ++ [some ⟨"transaction.duration"⟩] } := by
  have ht : transformAggregate name = "transaction.duration" := by
    unfold transformAggregate
    rw [if_pos hp]
  have hta : isTransformAggregate name = true := by
    unfold isTransformAggregate
    rw [ht]
    decide
  unfold transformFieldStep
  rw [hf]
  simp only [hta, if_true, ht]
  by_cases hc : st.transformed.contains "transaction.duration"
  · simp [hc]
  · simp [hc]

/-- C3 witness: `p50()` on a fresh pass is replaced by
`transaction.duration`; a second percentile in the same pass is deleted. -/
theorem transform_percentile_witness :
    transformFieldStep ⟨[], []⟩ ⟨"p50()"⟩ =
        ⟨["transaction.duration"], [some ⟨"transaction.duration"⟩]⟩ ∧
      transformFieldStep ⟨["transaction.duration"], [some ⟨"transaction.duration"⟩]⟩ ⟨"p75()"⟩ =
        ⟨["transaction.duration"], [some ⟨"transaction.duration"⟩, none]⟩ := by
  constructor
  · rw [transform_percentile ⟨[], []⟩ ⟨"p50()"⟩ "p50" "" (by decide) (by decide)]
    decide
  · rw [transform_percentile ⟨["transaction.duration"], [some ⟨"transaction.duration"⟩]⟩
      ⟨"p75()"⟩ "p75" "" (by decide) (by decide)]
    decide

/-! ### Claim C8 — "project.id" conditions -/

/-- C8: query assembly is total — for every merged `project.id` condition
entry the returned view's project-scope list is the input list with the
parse result appended: the integer value when the string parses, and the
not-a-number marker (`none`, modelling `parseInt`'s `NaN`) when it does
not.  The append is unconditional, so duplicates are allowed. -/
theorem projectId_condition_appends (eventView : EventView) (additionalConditions : CondMap)
    (dataRow : Option DataRow) (v : String)
    (h : lookupKey
        (objAssign additionalConditions (generateAdditionalConditions eventView dataRow))
        "project.id" = some v) :
    ((generateExpandedConditions eventView additionalConditions dataRow).1).project =
      eventView.project ++ [parseIntBase10 v] := by
  unfold generateExpandedConditions
  have hsingle :
      (objAssign additionalConditions
          (generateAdditionalConditions eventView dataRow)).filter
        (fun kv => kv.1 = "project.id") = [("project.id", v)] :=
    filter_eq_single_of_lookupKey _ _ _
      (nodupKeys_objAssign additionalConditions (generateAdditionalConditions eventView dataRow)) h
  rw [foldl_expandedConditionStep_project, hsingle]
  simp

/-- C8 witness: a caller condition `project.id -> "abc"` does not parse as
an integer; assembly still returns a complete view, with the `NaN` marker
appended after the pre-existing project entry. -/
theorem projectId_condition_appends_witness :
    lookupKey (objAssign [("project.id", "abc")] (generateAdditionalConditions ⟨[], "", [some 3], []⟩ none))
        "project.id" = some "abc" ∧
      parseIntBase10 "abc" = none ∧
      ((generateExpandedConditions ⟨[], "", [some 3], []⟩ [("project.id", "abc")] none).1).project =
        [some 3, none] := by
  refine ⟨by decide, by decide, ?_⟩
  rw [projectId_condition_appends ⟨[], "", [some 3], []⟩ [("project.id", "abc")] none "abc"
    (by decide)]
  decide

/-! ### Lemmas about the condition-generator blocks -/

theorem conditionStep_field_eq (row : DataRow) (c : CondMap) (field cf : String)
    (h : explodeField field = Column.field cf) :
    conditionStep row c field =
      conditionStepTag row (conditionStepAttr row c (getAggregateAlias field) cf)
        (getAggregateAlias field) cf := by
  unfold conditionStep
  rw [h]

theorem conditionStepAttr_none (row : DataRow) (c : CondMap) (dataKey cf : String)
    (hav : row.get dataKey = none) :
    conditionStepAttr row c dataKey cf = c := by
  unfold conditionStepAttr
  rw [hav]

theorem conditionStepAttr_some_plain (row : DataRow) (c : CondMap) (dataKey cf : String)
    (v : JVal) (hav : row.get dataKey = some v)
    (h2 : cf ≠ "timestamp") (h3 : cf ≠ "user") :
    conditionStepAttr row c dataKey cf = setKey c cf (normalizeConditionValue v) := by
  unfold conditionStepAttr
  rw [hav]
  simp only [if_neg h2, if_neg h3]

theorem conditionStepTag_none (row : DataRow) (c : CondMap) (dataKey cf : String)
    (h : (row.tags.getD []).find? (fun item => item.key = dataKey) = none) :
    conditionStepTag row c dataKey cf = c := by
  unfold conditionStepTag
  cases htags : row.tags with
  | none => rfl
  | some tags =>
    rw [htags] at h
    simp only [Option.getD_some] at h
    simp only [htags, h]

theorem conditionStepTag_plain (row : DataRow) (c : CondMap) (dataKey cf : String)
    (tags : List Tag) (tag : Tag)
    (htags : row.tags = some tags)
    (hfind : tags.find? (fun item => item.key = dataKey) = some tag)
    (hsp : specialKeys.contains cf = false) (hcu : cf ≠ "user") :
    conditionStepTag row c dataKey cf = setKey c cf tag.value := by
  unfold conditionStepTag
  simp only [htags, hfind, hsp, Bool.false_eq_true, if_false, if_neg hcu]

/-! ### Claim C6 — value normalization in the condition generator -/

theorem explodeField_field_eq (f cf : String) (h : explodeField f = Column.field cf) :
    cf = f := by
  unfold explodeField at h
  repeat' split at h
  all_goals first
    | (injection h with h1; exact h1.symm)
    | simp at h

theorem getAggregateAlias_of_field (f cf : String) (h : explodeField f = Column.field cf) :
    getAggregateAlias f = f := by
  unfold getAggregateAlias
  rw [h]

/-- C6 counterexample: the claim quantifies over every bare field, but the
`user` field is special-cased: for the value `"id:42"` (trimmed, no
quotable character) the claim predicts the trimmed value as the generated
condition value, while the generator re-keys the pair to `user.id -> "42"`
and stores no condition under the field's key at all. -/
theorem condition_value_trimming_cex :
    hasQuotableChar (jsTrim "id:42") = false ∧
      generateAdditionalConditions ⟨[⟨"user"⟩], "", [], []⟩
          (some ⟨[("user", JVal.str "id:42")], none⟩) = [("user.id", "42")] ∧
      lookupKey
          (generateAdditionalConditions ⟨[⟨"user"⟩], "", [], []⟩
            (some ⟨[("user", JVal.str "id:42")], none⟩)) "user" ≠
        some (jsTrim "id:42") := by
  refine ⟨by decide, by decide, by decide⟩

/-- C6 (amended): for a bare field other than the special-cased `timestamp`
and `user` attributes, with no same-key tag on the row, the condition
generated from a data-row attribute value is: the empty string for
`null`/`undefined`; the value untrimmed when its trimmed form contains
whitespace, parentheses, a backslash or a double quote; and the
whitespace-trimmed value otherwise. -/
theorem condition_value_trimming (c : CondMap) (r : DataRow) (field cf : String) (v : JVal)
    (h1 : explodeField field = Column.field cf)
    (h2 : cf ≠ "timestamp") (h3 : cf ≠ "user")
    (h4 : r.get (getAggregateAlias field) = some v)
    (h5 : (r.tags.getD []).find? (fun item => item.key = getAggregateAlias field) = none) :
    lookupKey (conditionStep r c field) cf =
      some (match v with
            | .null => ""
            | .undef => ""
            | _ => if hasQuotableChar (jsTrim v.toStr) then v.toStr else jsTrim v.toStr) := by
  rw [conditionStep_field_eq r c field cf h1,
    conditionStepTag_none r _ _ cf h5,
    conditionStepAttr_some_plain r c _ cf v h4 h2 h3,
    lookupKey_setKey_self]
  cases v <;> simp [normalizeConditionValue]

/-- C6 witness: the amended statement evaluated on a `release` field with a
padded plain value (trimmed) and on one with parentheses (untrimmed). -/
theorem condition_value_trimming_witness :
    lookupKey
        (conditionStep ⟨[("release", JVal.str "  foo  ")], none⟩ [] "release") "release" =
      some "foo" ∧
      lookupKey
          (conditionStep ⟨[("release", JVal.str "foo (bar)")], none⟩ [] "release") "release" =
        some "foo (bar)" := by
  constructor
  · rw [condition_value_trimming [] ⟨[("release", JVal.str "  foo  ")], none⟩ "release"
      "release" (JVal.str "  foo  ") (by decide) (by decide) (by decide) (by decide) (by decide)]
    decide
  · rw [condition_value_trimming [] ⟨[("release", JVal.str "foo (bar)")], none⟩ "release"
      "release" (JVal.str "foo (bar)") (by decide) (by decide) (by decide) (by decide) (by decide)]
    decide

/-! ### Claim C5 — tag-derived conditions overwrite attribute-derived ones -/

theorem conditionStep_tag_wins (c : CondMap) (r : DataRow) (field cf : String)
    (tags : List Tag) (tag : Tag)
    (h1 : explodeField field = Column.field cf)
    (h2 : specialKeys.contains cf = false) (h3 : cf ≠ "user")
    (h4 : r.tags = some tags)
    (h5 : tags.find? (fun item => item.key = getAggregateAlias field) = some tag) :
    lookupKey (conditionStep r c field) cf = some tag.value := by
  rw [conditionStep_field_eq r c field cf h1,
    conditionStepTag_plain r _ _ cf tags tag h4 h5 h2 h3]
  exact lookupKey_setKey_self _ cf tag.value

/-- C5 counterexample: the claim as stated is about the final conditions
mapping, but a later field can overwrite the key.  The view
`[user.a, user]` over a row with attribute `user.a = "x"`, attribute
`user = "a:9"` and tag `user.a -> "y"` satisfies every hypothesis of the
claim for the `user.a` field, yet the final mapping carries `"9"` (written
by the later `user` field's attribute split), not the tag's value `"y"`. -/
theorem tag_overwrites_attribute_cex :
    lookupKey
        (generateAdditionalConditions ⟨[⟨"user.a"⟩, ⟨"user"⟩], "", [], []⟩
          (some ⟨[("user.a", JVal.str "x"), ("user", JVal.str "a:9")], some [⟨"user.a", "y"⟩]⟩))
        "user.a" ≠ some "y" ∧
      lookupKey
          (generateAdditionalConditions ⟨[⟨"user.a"⟩, ⟨"user"⟩], "", [], []⟩
            (some ⟨[("user.a", JVal.str "x"), ("user", JVal.str "a:9")], some [⟨"user.a", "y"⟩]⟩))
          "user.a" = some "9" := by
  refine ⟨by decide, by decide⟩

/-- C5 (amended): for a bare field whose key is not a reserved scoping
parameter and not `user`, with the data row carrying both the attribute and
a same-key tag, the condition at that key equals the tag's value at the
point that field is processed, whatever conditions were accumulated before
(the tag-derived value overwrites the attribute-derived one); and it is the
final value whenever the field is the last one of the view — a later field
can overwrite the key again. -/
theorem tag_overwrites_attribute :
    (∀ (c : CondMap) (r : DataRow) (field cf : String) (tags : List Tag) (tag : Tag),
        explodeField field = Column.field cf →
        specialKeys.contains cf = false → cf ≠ "user" →
        (r.get (getAggregateAlias field)).isSome = true →
        r.tags = some tags →
        tags.find? (fun item => item.key = getAggregateAlias field) = some tag →
        lookupKey (conditionStep r c field) cf = some tag.value) ∧
      (∀ (ev : EventView) (pre : List Field) (f : Field) (r : DataRow) (cf : String)
          (tags : List Tag) (tag : Tag),
        ev.fields = pre ++ [f] →
        explodeField f.field = Column.field cf →
        specialKeys.contains cf = false → cf ≠ "user" →
        (r.get (getAggregateAlias f.field)).isSome = true →
        r.tags = some tags →
        tags.find? (fun item => item.key = getAggregateAlias f.field) = some tag →
        lookupKey (generateAdditionalConditions ev (some r)) cf = some tag.value) := by
  constructor
  · intro c r field cf tags tag h1 h2 h3 _ h4 h5
    exact conditionStep_tag_wins c r field cf tags tag h1 h2 h3 h4 h5
  · intro ev pre f r cf tags tag hfields h1 h2 h3 _ h4 h5
    unfold generateAdditionalConditions
    rw [hfields]
    simp only [List.foldl_append, List.foldl_cons, List.foldl_nil]
    exact conditionStep_tag_wins _ r f.field cf tags tag h1 h2 h3 h4 h5

/-- C5 witness: a `color` field whose row has both the attribute `" red "`
and the tag `blue`; the generated condition is the tag's value. -/
theorem tag_overwrites_attribute_witness :
    lookupKey
        (generateAdditionalConditions ⟨[⟨"color"⟩], "", [], []⟩
          (some ⟨[("color", JVal.str " red ")], some [⟨"color", "blue"⟩]⟩)) "color" =
      some "blue" := by
  rw [tag_overwrites_attribute.2 ⟨[⟨"color"⟩], "", [], []⟩ [] ⟨"color"⟩
    ⟨[("color", JVal.str " red ")], some [⟨"color", "blue"⟩]⟩ "color" [⟨"color", "blue"⟩]
    ⟨"color", "blue"⟩ (by decide) (by decide) (by decide) (by decide) (by decide) (by decide)
    (by decide)]

/-! ### Claim C2 — views with only bare fields -/

theorem getExpandedResults_fields_eq (ev : EventView) (ac : CondMap) (dr : Option DataRow) :
    (getExpandedResults ev ac dr).fields = transformFields ev.fields := by
  unfold getExpandedResults getExpandedResultsTracked generateExpandedConditions EventView.clone
  simp only []
  rw [foldl_expandedConditionStep_fields]

theorem transformFields_of_bare (fields : List Field)
    (h : ∀ f ∈ fields, (explodeField f.field).isField = true) :
    transformFields fields = fields := by
  unfold transformFields
  have aux : ∀ (l : List Field) (st : TransformState),
      (∀ f ∈ l, (explodeField f.field).isField = true) →
      (l.foldl transformFieldStep st).out = st.out ++ l.map some := by
    intro l
    induction l with
    | nil => intro st _; simp
    | cons f rest ih =>
      intro st hl
      have hf := hl f (List.mem_cons_self f rest)
      have hstep : transformFieldStep st f = { st with out := st.out ++ [some f] } := by
        cases hcol : explodeField f.field with
        | field cf =>
          unfold transformFieldStep
          rw [hcol]
        | function n a =>
          rw [hcol] at hf
          simp [Column.isField] at hf
      rw [List.foldl_cons, hstep, ih _ (fun g hg => hl g (List.mem_cons_of_mem f hg))]
      simp
  rw [aux fields ⟨[], []⟩ h]
  simp [List.filterMap_map]

/-- C2 counterexample: the view `⟨[title], "count():1"⟩` has only bare
fields, yet with no data row and empty caller conditions the filter string
changes: the `count()` key of the parsed filter is an aggregate and is
removed, so the returned filter is `""`. -/
theorem expand_bare_identity_cex :
    (([⟨"title"⟩] : List Field).all (fun f => (explodeField f.field).isField)) = true ∧
      (getExpandedResults ⟨[⟨"title"⟩], "count():1", [], []⟩ [] none).query = "" ∧
      (getExpandedResults ⟨[⟨"title"⟩], "count():1", [], []⟩ [] none).query ≠
        (⟨[⟨"title"⟩], "count():1", [], []⟩ : EventView).query := by
  refine ⟨by decide, by decide, by decide⟩

/-- C2 (amended): for a view whose fields all decode to bare references,
called with no data row and an empty caller-conditions mapping, the
returned view has the same field list; the filter string is unchanged
provided it is in canonical serialized form (re-serializing its parse
reproduces it) and none of its parsed keys decodes to an aggregate
function — in general the filter is re-serialized with aggregate keys
removed. -/
theorem expand_bare_identity (ev : EventView)
    (hb : ∀ f ∈ ev.fields, (explodeField f.field).isField = true)
    (hna : ∀ kv ∈ (tokenizeSearch ev.query).tags, (explodeField kv.1).isField = true)
    (hcanon : stringifyQueryObject (tokenizeSearch ev.query) = ev.query) :
    (getExpandedResults ev [] none).fields = ev.fields ∧
      (getExpandedResults ev [] none).query = ev.query := by
  constructor
  · rw [getExpandedResults_fields_eq]
    exact transformFields_of_bare ev.fields hb
  · show (getExpandedResultsTracked ev [] none).2.query = ev.query
    unfold getExpandedResultsTracked generateExpandedConditions EventView.clone
    simp only []
    have hfilter : (tokenizeSearch ev.query).tags.filter (fun kv => (explodeField kv.1).isField) =
        (tokenizeSearch ev.query).tags :=
      List.filter_eq_self.mpr hna
    simp only [generateAdditionalConditions, objAssign, List.append_nil, List.foldl_nil]
    rw [hfilter]
    exact hcanon

/-- C2 witness: the amended statement on the canonical filter `"a:b"` with a
single bare `title` field. -/
theorem expand_bare_identity_witness :
    (getExpandedResults ⟨[⟨"title"⟩], "a:b", [], []⟩ [] none).fields =
        ([⟨"title"⟩] : List Field) ∧
      (getExpandedResults ⟨[⟨"title"⟩], "a:b", [], []⟩ [] none).query = "a:b" :=
  expand_bare_identity ⟨[⟨"title"⟩], "a:b", [], []⟩ (by decide) (by decide) (by decide)

/-! ### Claim C1 — no aggregates in the expanded view -/

theorem transformAggregate_mem (s : String) :
    transformAggregate s = "" ∨ transformAggregate s = "timestamp" ∨
      transformAggregate s = "transaction.duration" := by
  unfold transformAggregate TRANSFORM_AGGREGATES
  by_cases hp : isPercentileName s = true
  · simp [hp]
  · simp only [hp, Bool.false_eq_true, if_false]
    simp only [List.lookup]
    repeat' split
    all_goals simp

theorem transformFieldStep_bare_out (st : TransformState) (g : Field)
    (hw : wellFormedField g = true)
    (hst : ∀ f : Field, some f ∈ st.out → (explodeField f.field).isField = true) :
    ∀ f : Field, some f ∈ (transformFieldStep st g).out →
      (explodeField f.field).isField = true := by
  intro f hf
  cases hcol : explodeField g.field with
  | field cf =>
    unfold transformFieldStep at hf
    rw [hcol] at hf
    rcases List.mem_append.mp hf with h | h
    · exact hst f h
    · simp at h
      subst h
      rw [hcol]
      rfl
  | function n a =>
    have ha : (explodeField a).isField = true := by
      unfold wellFormedField at hw
      rw [hcol] at hw
      exact hw
    have hEmpty : isTransformAggregate "" = false := by decide
    unfold transformFieldStep at hf
    rw [hcol] at hf
    by_cases hta : isTransformAggregate n = true
    · simp only [hta, if_true] at hf
      by_cases hc :
          (decide (transformAggregate n = "") ||
            st.transformed.contains (transformAggregate n)) = true
      · rw [if_pos hc] at hf
        rcases List.mem_append.mp hf with h | h
        · exact hst f h
        · simp at h
      · rw [if_neg hc] at hf
        rcases List.mem_append.mp hf with h | h
        · exact hst f h
        · simp at h
          subst h
          rcases transformAggregate_mem n with h0 | h0 | h0
          · exact absurd (by simp [h0]) hc
          · show (explodeField (transformAggregate n)).isField = true
            rw [h0]
            rfl
          · show (explodeField (transformAggregate n)).isField = true
            rw [h0]
            rfl
    · have hta' : isTransformAggregate n = false := by
        cases h' : isTransformAggregate n
        · rfl
        · exact absurd h' hta
      simp only [hta', Bool.false_eq_true, if_false, hEmpty] at hf
      by_cases hc1 : st.transformed.contains a = true
      · rw [if_pos hc1] at hf
        rcases List.mem_append.mp hf with h | h
        · exact hst f h
        · simp at h
      · rw [if_neg hc1] at hf
        by_cases hc2 : (decide (n = "count") || decide (a = "id")) = true
        · rw [if_pos hc2] at hf
          rcases List.mem_append.mp hf with h | h
          · exact hst f h
          · simp at h
        · rw [if_neg hc2] at hf
          by_cases hc3 :
              (decide (a = "") ||
                (decide ((((AGGREGATIONS.lookup n).map Aggregation.parameters).getD []) ≠ []) &&
                  (((AGGREGATIONS.lookup n).map Aggregation.parameters).getD []).all
                    (fun p => p.kind ≠ ParamKind.column))) = true
          · rw [if_pos hc3] at hf
            rcases List.mem_append.mp hf with h | h
            · exact hst f h
            · simp at h
          · rw [if_neg hc3] at hf
            rcases List.mem_append.mp hf with h | h
            · exact hst f h
            · simp at h
              subst h
              exact ha

/-- C1 counterexample: the field `foo(count(id))` — an unknown aggregate
whose argument text is itself a function application — is replaced by the
bare column text `count(id)`, which decodes as a function, so the returned
view still contains an aggregate field. -/
theorem expanded_no_aggregates_cex :
    ¬ (∀ f ∈ (getExpandedResults ⟨[⟨"foo(count(id))"⟩], "", [], []⟩ [] none).fields,
        (explodeField f.field).isField = true) := by
  intro h
  exact absurd (h ⟨"count(id)"⟩ (by decide)) (by decide)

/-- C1 (amended): for every view whose aggregate fields are well formed —
their argument text does not itself decode as a function application —
every field of the view returned by `getExpandedResults` decodes as a bare
field reference: each original aggregate is replaced by its underlying
column or deleted. -/
theorem expanded_no_aggregates (ev : EventView) (ac : CondMap) (dr : Option DataRow)
    (h : ∀ f ∈ ev.fields, wellFormedField f = true) :
    ∀ f ∈ (getExpandedResults ev ac dr).fields, (explodeField f.field).isField = true := by
  intro f hf
  rw [getExpandedResults_fields_eq] at hf
  unfold transformFields at hf
  rcases List.mem_filterMap.mp hf with ⟨o, ho, hoo⟩
  have aux : ∀ (l : List Field) (st : TransformState),
      (∀ g ∈ l, wellFormedField g = true) →
      (∀ f' : Field, some f' ∈ st.out → (explodeField f'.field).isField = true) →
      ∀ f' : Field, some f' ∈ (l.foldl transformFieldStep st).out →
        (explodeField f'.field).isField = true := by
    intro l
    induction l with
    | nil => intro st _ hst f' hf'; exact hst f' hf'
    | cons g rest ih =>
      intro st hl hst f' hf'
      rw [List.foldl_cons] at hf'
      exact ih (transformFieldStep st g)
        (fun g' hg' => hl g' (List.mem_cons_of_mem g hg'))
        (transformFieldStep_bare_out st g (hl g (List.mem_cons_self g rest)) hst) f' hf'
  cases o with
  | none => simp at hoo
  | some f' =>
    have hff : f' = f := by simpa using hoo
    subst hff
    exact aux ev.fields ⟨[], []⟩ h (fun f' hf' => by simp at hf') f' ho

/-- C1 witness: a view mixing a known aggregate, `count()` and a bare field
is fully de-aggregated. -/
theorem expanded_no_aggregates_witness :
    (∀ f ∈ ([⟨"avg(transaction.duration)"⟩, ⟨"count()"⟩, ⟨"title"⟩] : List Field),
        wellFormedField f = true) ∧
      (∀ f ∈ (getExpandedResults
            ⟨[⟨"avg(transaction.duration)"⟩, ⟨"count()"⟩, ⟨"title"⟩], "", [], []⟩ [] none).fields,
        (explodeField f.field).isField = true) :=
  ⟨by decide,
   expanded_no_aggregates ⟨[⟨"avg(transaction.duration)"⟩, ⟨"count()"⟩, ⟨"title"⟩], "", [], []⟩
     [] none (by decide)⟩

/-! ### Claim C7 — the user tag produces user.id and removes the bare key -/

theorem tags_bracket_head (cf : String) :
    ("tags[" ++ cf ++ "]").data.head? = some 't' := by
  have hd : ("tags[" : String).data = ['t', 'a', 'g', 's', '['] := by decide
  rw [String.data_append, String.data_append, hd]
  simp

theorem tags_bracket_ne (cf s : String) (hs : s.data.head? ≠ some 't') :
    "tags[" ++ cf ++ "]" ≠ s := by
  intro h
  exact hs (h ▸ tags_bracket_head cf)

theorem conditionStepAttr_preserves (r : DataRow) (c : CondMap) (dk cf k : String)
    (hk : k ≠ cf) (hu : cf = "user" → r.get dk = none) :
    lookupKey (conditionStepAttr r c dk cf) k = lookupKey c k := by
  unfold conditionStepAttr
  cases hav : r.get dk with
  | none => rfl
  | some v =>
    dsimp only
    by_cases hts : cf = "timestamp"
    · rw [if_pos hts]
      exact lookupKey_setKey_ne c cf _ k hk
    · by_cases hcu : cf = "user"
      · rw [hu hcu] at hav
        cases hav
      · rw [if_neg hts, if_neg hcu]
        exact lookupKey_setKey_ne c cf _ k hk

theorem conditionStepTag_user_path (r : DataRow) (c : CondMap) (tags : List Tag) (tag : Tag)
    (htags : r.tags = some tags)
    (hfind : tags.find? (fun item => item.key = "user") = some tag) :
    conditionStepTag r c "user" "user" =
      setKey (delKey c "user") (normalizeUserTag "user" tag.value).1
        (normalizeUserTag "user" tag.value).2 := by
  unfold conditionStepTag
  rw [htags]
  dsimp only
  rw [hfind]
  dsimp only
  rw [if_neg (by decide : ¬ (specialKeys.contains "user" = true))]
  rw [if_pos rfl]

theorem conditionStepTag_wrapped (r : DataRow) (c : CondMap) (cf : String) (tags : List Tag)
    (tag : Tag) (htags : r.tags = some tags)
    (hfind : tags.find? (fun item => item.key = cf) = some tag)
    (hsp : specialKeys.contains cf = true) :
    conditionStepTag r c cf cf = setKey c ("tags[" ++ cf ++ "]") tag.value := by
  unfold conditionStepTag
  rw [htags]
  dsimp only
  rw [hfind]
  dsimp only
  rw [if_pos hsp]
  rw [if_neg (tags_bracket_ne cf "user" (by decide))]

theorem conditionStep_user_stays_none (r : DataRow) (tags : List Tag)
    (hattr : r.get "user" = none) (htags : r.tags = some tags)
    (hfind : tags.find? (fun item => item.key = "user") = some ⟨"user", "id:42"⟩)
    (c : CondMap) (field : String) (hc : lookupKey c "user" = none) :
    lookupKey (conditionStep r c field) "user" = none := by
  cases hcol : explodeField field with
  | function n a =>
    unfold conditionStep
    rw [hcol]
    exact hc
  | field cf =>
    have hcf := explodeField_field_eq field cf hcol
    subst hcf
    have hdk : getAggregateAlias cf = cf := getAggregateAlias_of_field cf cf hcol
    rw [conditionStep_field_eq r c cf cf hcol, hdk]
    by_cases hfu : cf = "user"
    · subst hfu
      have hA : conditionStepAttr r c "user" "user" = c := conditionStepAttr_none r c _ _ hattr
      rw [hA, conditionStepTag_user_path r c tags ⟨"user", "id:42"⟩ htags hfind]
      rw [lookupKey_setKey_ne _ _ _ _ (by decide)]
      exact lookupKey_delKey_self _ "user"
    · have hA : lookupKey (conditionStepAttr r c cf cf) "user" = none := by
        rw [conditionStepAttr_preserves r c cf cf "user" (fun h => hfu h.symm)
          (fun h => absurd h hfu)]
        exact hc
      unfold conditionStepTag
      rw [htags]
      dsimp only
      cases hft : tags.find? (fun item => item.key = cf) with
      | none => exact hA
      | some tag =>
        dsimp only
        by_cases hsp : specialKeys.contains cf = true
        · rw [if_pos hsp]
          have hbr : ("tags[" ++ cf ++ "]") ≠ "user" := tags_bracket_ne cf "user" (by decide)
          rw [if_neg hbr, lookupKey_setKey_ne _ _ _ _ (Ne.symm hbr)]
          exact hA
        · rw [if_neg hsp, if_neg hfu, lookupKey_setKey_ne _ _ _ _ (fun h => hfu h.symm)]
          exact hA

theorem conditionStep_userId_stays (r : DataRow) (tags : List Tag)
    (hattr : r.get "user" = none) (htags : r.tags = some tags)
    (hfind : tags.find? (fun item => item.key = "user") = some ⟨"user", "id:42"⟩)
    (c : CondMap) (field : String)
    (hexcl : explodeField field ≠ Column.field "user.id")
    (hc : lookupKey c "user.id" = some "42") :
    lookupKey (conditionStep r c field) "user.id" = some "42" := by
  cases hcol : explodeField field with
  | function n a =>
    unfold conditionStep
    rw [hcol]
    exact hc
  | field cf =>
    have hcf := explodeField_field_eq field cf hcol
    subst hcf
    have hdk : getAggregateAlias cf = cf := getAggregateAlias_of_field cf cf hcol
    have hcfid : cf ≠ "user.id" := fun h => hexcl (h ▸ hcol)
    rw [conditionStep_field_eq r c cf cf hcol, hdk]
    by_cases hfu : cf = "user"
    · subst hfu
      have hA : conditionStepAttr r c "user" "user" = c := conditionStepAttr_none r c _ _ hattr
      rw [hA, conditionStepTag_user_path r c tags ⟨"user", "id:42"⟩ htags hfind]
      have hnorm : normalizeUserTag "user" "id:42" = ("user.id", "42") := by decide
      rw [hnorm]
      exact lookupKey_setKey_self _ "user.id" "42"
    · have hA : lookupKey (conditionStepAttr r c cf cf) "user.id" = some "42" := by
        rw [conditionStepAttr_preserves r c cf cf "user.id" (Ne.symm hcfid)
          (fun h => absurd h hfu)]
        exact hc
      unfold conditionStepTag
      rw [htags]
      dsimp only
      cases hft : tags.find? (fun item => item.key = cf) with
      | none => exact hA
      | some tag =>
        dsimp only
        by_cases hsp : specialKeys.contains cf = true
        · rw [if_pos hsp]
          have hbr : ("tags[" ++ cf ++ "]") ≠ "user" := tags_bracket_ne cf "user" (by decide)
          have hbr2 : ("tags[" ++ cf ++ "]") ≠ "user.id" :=
            tags_bracket_ne cf "user.id" (by decide)
          rw [if_neg hbr, lookupKey_setKey_ne _ _ _ _ (Ne.symm hbr2)]
          exact hA
        · rw [if_neg hsp, if_neg hfu, lookupKey_setKey_ne _ _ _ _ (Ne.symm hcfid)]
          exact hA

theorem conditionStep_user_establishes (r : DataRow) (tags : List Tag)
    (hattr : r.get "user" = none) (htags : r.tags = some tags)
    (hfind : tags.find? (fun item => item.key = "user") = some ⟨"user", "id:42"⟩)
    (c : CondMap) :
    lookupKey (conditionStep r c "user") "user.id" = some "42" ∧
      lookupKey (conditionStep r c "user") "user" = none := by
  have hcol : explodeField "user" = Column.field "user" := by decide
  have hdk : getAggregateAlias "user" = "user" := by decide
  rw [conditionStep_field_eq r c "user" "user" hcol, hdk,
    conditionStepAttr_none r c _ _ hattr,
    conditionStepTag_user_path r c tags ⟨"user", "id:42"⟩ htags hfind]
  have hnorm : normalizeUserTag "user" "id:42" = ("user.id", "42") := by decide
  rw [hnorm]
  constructor
  · exact lookupKey_setKey_self _ "user.id" "42"
  · rw [lookupKey_setKey_ne _ _ _ _ (by decide)]
    exact lookupKey_delKey_self _ "user"
/-- C7 counterexample: with an additional `user.id` field whose attribute is
present on the row, the claim's predicted entry `user.id -> "42"` is
overwritten by the attribute-derived value of the later field, so the claim
as stated (over every such view) fails. -/
theorem user_tag_conditions_cex :
    lookupKey
        (generateAdditionalConditions ⟨[⟨"user"⟩, ⟨"user.id"⟩], "", [], []⟩
          (some ⟨[("user.id", JVal.str "7")], some [⟨"user", "id:42"⟩]⟩)) "user.id" ≠
      some "42" ∧
      lookupKey
          (generateAdditionalConditions ⟨[⟨"user"⟩, ⟨"user.id"⟩], "", [], []⟩
            (some ⟨[("user.id", JVal.str "7")], some [⟨"user", "id:42"⟩]⟩)) "user.id" =
        some "7" := by
  refine ⟨by decide, by decide⟩

/-- C7 (amended): for a view containing a bare `user` field and a data row
whose first `user` tag is `{key: "user", value: "id:42"}` and which has no
`user` attribute, provided no field of the view decodes to the bare field
`user.id`, the generated conditions mapping contains `user.id -> "42"` and
no entry under the bare key `user`. -/
theorem user_tag_conditions (ev : EventView) (r : DataRow) (pre post : List Field)
    (uf : Field) (tags : List Tag)
    (hsplit : ev.fields = pre ++ uf :: post)
    (huf : uf.field = "user")
    (hattr : r.get "user" = none)
    (htags : r.tags = some tags)
    (hfind : tags.find? (fun item => item.key = "user") = some ⟨"user", "id:42"⟩)
    (hnone : ∀ g ∈ ev.fields, explodeField g.field ≠ Column.field "user.id") :
    lookupKey (generateAdditionalConditions ev (some r)) "user.id" = some "42" ∧
      lookupKey (generateAdditionalConditions ev (some r)) "user" = none := by
  unfold generateAdditionalConditions
  dsimp only
  rw [hsplit, List.foldl_append, List.foldl_cons, huf]
  have hufstep := conditionStep_user_establishes r tags hattr htags hfind
    (pre.foldl (fun c f => conditionStep r c f.field) [])
  have hpost : ∀ (l : List Field) (c : CondMap),
      (∀ g ∈ l, explodeField g.field ≠ Column.field "user.id") →
      lookupKey c "user.id" = some "42" → lookupKey c "user" = none →
      lookupKey (l.foldl (fun c f => conditionStep r c f.field) c) "user.id" = some "42" ∧
        lookupKey (l.foldl (fun c f => conditionStep r c f.field) c) "user" = none := by
    intro l
    induction l with
    | nil => intro c _ h1 h2; exact ⟨h1, h2⟩
    | cons g rest ih =>
      intro c hl h1 h2
      rw [List.foldl_cons]
      exact ih _ (fun g' hg' => hl g' (List.mem_cons_of_mem g hg'))
        (conditionStep_userId_stays r tags hattr htags hfind c g.field
          (hl g (List.mem_cons_self g rest)) h1)
        (conditionStep_user_stays_none r tags hattr htags hfind c g.field h2)
  exact hpost post _
    (fun g hg => hnone g (by
      rw [hsplit]
      exact List.mem_append.mpr (Or.inr (List.mem_cons_of_mem uf hg))))
    hufstep.1 hufstep.2

/-- C7 witness: the amended statement on the view `[user, release]` with the
row carrying only the tag `user -> "id:42"`. -/
theorem user_tag_conditions_witness :
    lookupKey
        (generateAdditionalConditions ⟨[⟨"user"⟩, ⟨"release"⟩], "", [], []⟩
          (some ⟨[], some [⟨"user", "id:42"⟩]⟩)) "user.id" = some "42" ∧
      lookupKey
          (generateAdditionalConditions ⟨[⟨"user"⟩, ⟨"release"⟩], "", [], []⟩
            (some ⟨[], some [⟨"user", "id:42"⟩]⟩)) "user" = none :=
  user_tag_conditions ⟨[⟨"user"⟩, ⟨"release"⟩], "", [], []⟩ ⟨[], some [⟨"user", "id:42"⟩]⟩
    [] [⟨"release"⟩] ⟨"user"⟩ [⟨"user", "id:42"⟩] rfl rfl (by decide) rfl (by decide)
    (by decide)

example : normalizeUserTag "user" "id:123" = ("user.id", "123") := by decide
example : normalizeUserTag "user" "id:12:34" = ("user.id", "12") := by decide
example : normalizeUserTag "user" "someone" = ("user", "someone") := by decide
example : explodeField "count()" = Column.function "count" "" := by decide
example : explodeField "foo(count(id))" = Column.function "foo" "count(id)" := by decide
example : explodeField "transaction.duration" = Column.field "transaction.duration" := by decide
example : transformAggregate "p50" = "transaction.duration" := by decide
example : transformAggregate "last_seen" = "timestamp" := by decide
example : parseIntBase10 "42abc" = some 42 := by decide
example : parseIntBase10 "abc" = none := by decide
example : tokenizeSearch "a:b error c:d" =
    ⟨["error"], [("a", ["b"]), ("c", ["d"])]⟩ := by decide
example : stringifyQueryObject ⟨["error"], [("a", ["b"]), ("c", ["d"])]⟩ =
    "error a:b c:d" := by decide
example : transformFields [⟨"title"⟩, ⟨"count()"⟩, ⟨"avg(transaction.duration)"⟩] =
    [⟨"title"⟩, ⟨"transaction.duration"⟩] := by decide
example : transformFields [⟨"transaction.duration"⟩, ⟨"p50()"⟩] =
    [⟨"transaction.duration"⟩, ⟨"transaction.duration"⟩] := by decide
example : transformFields [⟨"p50()"⟩, ⟨"p75()"⟩] = [⟨"transaction.duration"⟩] := by decide
example : getExpandedResults ⟨[⟨"title"⟩], "a:b", [], []⟩ [] none =
    ⟨[⟨"title"⟩], "a:b", [], []⟩ := by decide
example : getExpandedResults ⟨[⟨"title"⟩], "count():1", [], []⟩ [] none =
    ⟨[⟨"title"⟩], "", [], []⟩ := by decide
example :
    generateAdditionalConditions ⟨[⟨"user"⟩], "", [], []⟩
      (some ⟨[], some [⟨"user", "id:42"⟩]⟩) = [("user.id", "42")] := by decide
example :
    generateAdditionalConditions ⟨[⟨"user.a"⟩, ⟨"user"⟩], "", [], []⟩
      (some ⟨[("user.a", .str "x"), ("user", .str "a:9")], some [⟨"user.a", "y"⟩]⟩) =
    [("user.a", "9")] := by decide

end Sentry
